import Mathlib

/-!
Shallow embedding of the UCM memory-event interception engine.

The repository provides the public interface `src/src/ucm/api/ucm.h`
(event-type bits, the event-record union, the callback type, the
registration API and the original-call gateway).  The engine behind that
interface (event registry, dispatch engine, aggregate-event synthesizer)
is described by the specification; the definitions below embed the header
directly and model the engine from the specification where its code is
not among the provided sources.
-/

set_option maxHeartbeats 4000000
set_option maxRecDepth 10000

namespace UCM

/-- Modelled from the spec: `UCS_BIT` is defined in `ucs/sys/math.h`, which is
not among the provided sources.  The spec (§3) describes event types as
independent bits of a fixed enumeration, so `UCS_BIT n` is the `n`-th bit,
`2 ^ n`. -/
def UCS_BIT (n : Nat) : Nat := 2 ^ n

/-- Memory event types, from `ucm_event_type_t` in `src/src/ucm/api/ucm.h`
lines 25-37. -/
inductive ucm_event_type where
  | UCM_EVENT_MMAP
  | UCM_EVENT_MUNMAP
  | UCM_EVENT_MREMAP
  | UCM_EVENT_SHMAT
  | UCM_EVENT_SHMDT
  | UCM_EVENT_SBRK
  | UCM_EVENT_VM_MAPPED
  | UCM_EVENT_VM_UNMAPPED
deriving DecidableEq, Fintype

open ucm_event_type

/-- Numeric value of each enumerator, exactly as assigned in `ucm.h`:
native events on bits 0-5, aggregate events on bits 16 and 17. -/
def ucm_event_type.value : ucm_event_type → Nat
  | UCM_EVENT_MMAP => UCS_BIT 0
  | UCM_EVENT_MUNMAP => UCS_BIT 1
  | UCM_EVENT_MREMAP => UCS_BIT 2
  | UCM_EVENT_SHMAT => UCS_BIT 3
  | UCM_EVENT_SHMDT => UCS_BIT 4
  | UCM_EVENT_SBRK => UCS_BIT 5
  | UCM_EVENT_VM_MAPPED => UCS_BIT 16
  | UCM_EVENT_VM_UNMAPPED => UCS_BIT 17

/-- All eight event types, in enumeration order. -/
def ucm_all_event_types : List ucm_event_type :=
  [UCM_EVENT_MMAP, UCM_EVENT_MUNMAP, UCM_EVENT_MREMAP, UCM_EVENT_SHMAT,
   UCM_EVENT_SHMDT, UCM_EVENT_SBRK, UCM_EVENT_VM_MAPPED, UCM_EVENT_VM_UNMAPPED]

/-- The mask built from a subscription choice: the bitwise OR of the values of
the chosen event types. -/
def eventMaskOf (f : ucm_event_type → Bool) : Nat :=
  ucm_all_event_types.foldr (fun t acc => (if f t then t.value else 0) ||| acc) 0

/-- Union of the six native event bits (bits 0-5). -/
def UCM_NATIVE_EVENT_MASK : Nat :=
  UCM_EVENT_MMAP.value ||| UCM_EVENT_MUNMAP.value ||| UCM_EVENT_MREMAP.value |||
  UCM_EVENT_SHMAT.value ||| UCM_EVENT_SHMDT.value ||| UCM_EVENT_SBRK.value

/-- Union of the two aggregate (read-only) event bits (bits 16 and 17). -/
def UCM_AGGREGATE_EVENT_MASK : Nat :=
  UCM_EVENT_VM_MAPPED.value ||| UCM_EVENT_VM_UNMAPPED.value

/-- One step of a dispatch trace: a handler invocation (recording the
handler's priority and registration sequence number), the single invocation
of the Original-Call Gateway, or the firing of an aggregate event. -/
inductive Step where
  | handler (priority : Int) (seq : Nat)
  | orig
  | fire_vm_mapped
  | fire_vm_unmapped
deriving DecidableEq

section Engine

variable {P R : Type}

/-- A handler as seen by the dispatch engine: its priority, its registration
sequence number, and its behaviour, which receives the current parameters and
the current (optional) result and returns updated ones.  The result field is
the spec's explicit sentinel-vs-valid optional (§3, §9): `none` is the
sentinel, `some` a valid result. -/
structure Handler (P R : Type) where
  priority : Int
  seq : Nat
  run : P → Option R → P × Option R

/-- The stack-local event record threaded through one dispatch, together with
the instrumentation needed to state the claims: how many times the
Original-Call Gateway ran, and the trace of visits. -/
structure DispatchState (P R : Type) where
  params : P
  result : Option R
  origCalls : Nat
  trace : List Step

/-- The event record as constructed at the start of a dispatch (spec §4.2
step 1): parameters from the call site, result initialized to the sentinel. -/
def initState (p : P) : DispatchState P R :=
  ⟨p, none, 0, []⟩

/-- Visiting one handler (spec §4.2 step 4): the handler receives the current
record and may mutate parameters and result; the visit is recorded in the
trace. -/
def visitHandler (h : Handler P R) (st : DispatchState P R) : DispatchState P R :=
  { st with
    params := (h.run st.params st.result).1
    result := (h.run st.params st.result).2
    trace := st.trace ++ [Step.handler h.priority h.seq] }

/-- Running a sub-chain of handlers in order, with no crossing logic. -/
def runHandlers (hs : List (Handler P R)) (st : DispatchState P R) : DispatchState P R :=
  hs.foldl (fun s h => visitHandler h s) st

/-- Modelled from the spec: the crossing-point action of the dispatch engine
(§4.2 step 5), abstracted over the exact original-call action `call`.  The
engine iterates the single ordered chain once; `crossed` records whether the
crossing from negative to non-negative priority already happened.  The
original-call action runs immediately before the first handler of
non-negative priority, or after the full chain if there is none. -/
def dispatchChainWith (call : DispatchState P R → DispatchState P R) :
    List (Handler P R) → Bool → DispatchState P R → DispatchState P R
  | [], crossed, st => if crossed then st else call st
  | h :: hs, crossed, st =>
    if crossed then
      dispatchChainWith call hs true (visitHandler h st)
    else if 0 ≤ h.priority then
      dispatchChainWith call hs true (visitHandler h (call st))
    else
      dispatchChainWith call hs false (visitHandler h st)

/-- Modelled from the spec: the engine's genuine-call step (§4.2 step 5),
whose code (`ucm/event/event.c`) is not among the provided sources.  If the
result field still holds the sentinel, the Original-Call Gateway is invoked
with the current (possibly mutated) parameters and its return value is stored
into the result field; otherwise nothing happens. -/
def callOrigIfSentinel (orig : P → R) (st : DispatchState P R) : DispatchState P R :=
  match st.result with
  | none =>
    { st with
      result := some (orig st.params)
      origCalls := st.origCalls + 1
      trace := st.trace ++ [Step.orig] }
  | some _ => st

/-- Modelled from the spec: the Dispatch Engine (§4.2), whose code is not
among the provided sources.  Given the genuine operation, the ordered chain
for the fired event's bit and the call-site parameters, it builds the event
record, traverses the chain once in order and performs the genuine call
lazily at the crossing point. -/
def ucm_event_dispatch (orig : P → R) (chain : List (Handler P R)) (p : P) :
    DispatchState P R :=
  dispatchChainWith (callOrigIfSentinel orig) chain false (initState p)

end Engine

/-- Status codes of the registration API.  Modelled from the spec: the
concrete `ucs_status_t` lives in `ucs/type/status.h`, which is not among the
provided sources; the spec (§6) names a small closed set. -/
inductive ucs_status where
  | UCS_OK
  | UCS_ERR_INVALID_ARGUMENT
  | UCS_ERR_OUT_OF_MEMORY
  | UCS_ERR_UNSUPPORTED
deriving DecidableEq

/-- A registered handler entry (spec §3): the event bitmask it subscribes,
its priority, the callback and user argument (identified by number, since
only their identity matters to the registry), and the registration sequence
number used to break priority ties. -/
structure HandlerEntry where
  events : Nat
  priority : Int
  cb : Nat
  arg : Nat
  seq : Nat
deriving DecidableEq

/-- The Event Registry (spec §4.1): the single ordered entry list (ascending
priority, stable) from which each bit's chain is read, plus the next
registration sequence number. -/
structure Registry where
  entries : List HandlerEntry
  nextSeq : Nat
deriving DecidableEq

/-- The registry of a fresh process: no entries. -/
def emptyRegistry : Registry :=
  ⟨[], 0⟩

/-- Stable priority-ordered insertion (spec §4.1): the new entry goes after
every existing entry whose priority is less than or equal to its own. -/
def insertEntry (e : HandlerEntry) : List HandlerEntry → List HandlerEntry
  | [] => [e]
  | x :: xs => if x.priority ≤ e.priority then x :: insertEntry e xs else e :: x :: xs

/-- Modelled from the spec: `ucm_set_event_handler` (declared in `ucm.h`
lines 179-180; its body is not among the provided sources).  Per spec §4.1 it
fails with invalid-argument if the mask is empty or references an aggregate
(read-only) bit, fails with out-of-memory if entry allocation fails (the
`allocOk` flag models the allocator), and otherwise atomically installs one
entry covering all requested bits at the position dictated by priority. -/
def ucm_set_event_handler (allocOk : Bool) (reg : Registry) (events : Nat)
    (priority : Int) (cb arg : Nat) : ucs_status × Registry :=
  if events = 0 ∨ events &&& UCM_AGGREGATE_EVENT_MASK ≠ 0 then
    (ucs_status.UCS_ERR_INVALID_ARGUMENT, reg)
  else if allocOk = false then
    (ucs_status.UCS_ERR_OUT_OF_MEMORY, reg)
  else
    (ucs_status.UCS_OK,
     ⟨insertEntry ⟨events, priority, cb, arg, reg.nextSeq⟩ reg.entries,
      reg.nextSeq + 1⟩)

/-- The entry with the requested bits removed (its events minus the removed
mask, written with xor since the kept bits are `events ^^^ (events &&& mask)`). -/
def removeBits (e : HandlerEntry) (mask : Nat) : HandlerEntry :=
  { e with events := e.events ^^^ (e.events &&& mask) }

/-- Modelled from the spec: `ucm_unset_event_handler` (declared in `ucm.h`
line 191; its body is not among the provided sources).  Per spec §4.1 and the
header comment, it removes the requested bits from every entry whose
(callback, argument) pair matches, retires an entry entirely once all of its
bits are removed, never fails, and is a silent no-op for pairs that are not
registered. -/
def ucm_unset_event_handler (reg : Registry) (events : Nat) (cb arg : Nat) :
    Registry :=
  ⟨reg.entries.filterMap (fun e =>
      if e.cb = cb ∧ e.arg = arg then
        if (removeBits e events).events = 0 then none else some (removeBits e events)
      else some e),
   reg.nextSeq⟩

/-- The ordered chain for one event bit (spec §4.1, §3): the entries whose
mask contains the bit, in registry order. -/
def chainFor (reg : Registry) (bit : Nat) : List HandlerEntry :=
  reg.entries.filter (fun e => decide (e.events &&& bit ≠ 0))

/-- The identity view of a chain: priority, sequence number, callback and
argument of each entry, ignoring the events bitmask bookkeeping. -/
def chainHandlers (reg : Registry) (bit : Nat) : List (Int × Nat × Nat × Nat) :=
  (chainFor reg bit).map (fun e => (e.priority, e.seq, e.cb, e.arg))

/-- A control-plane operation on the registry. -/
inductive RegOp where
  | set (allocOk : Bool) (events : Nat) (priority : Int) (cb arg : Nat)
  | unset (events : Nat) (cb arg : Nat)

/-- Apply one control-plane operation. -/
def applyOp (reg : Registry) : RegOp → Registry
  | RegOp.set allocOk events priority cb arg =>
    (ucm_set_event_handler allocOk reg events priority cb arg).2
  | RegOp.unset events cb arg =>
    ucm_unset_event_handler reg events cb arg

/-- The registry produced by a whole history of control-plane operations,
starting from the fresh registry. -/
def applyOps (ops : List RegOp) : Registry :=
  ops.foldl applyOp emptyRegistry

/-- The ordering contract's total order on entries (spec §4.2): priority
ascending, ties broken by registration order. -/
def prioSeqLT (a b : HandlerEntry) : Prop :=
  a.priority < b.priority ∨ (a.priority = b.priority ∧ a.seq < b.seq)

/-- The registry invariant maintained by the control plane: entries are
strictly ordered by (priority, registration sequence number) and every
sequence number is below the next one to be assigned. -/
def RegInv (reg : Registry) : Prop :=
  reg.entries.Pairwise prioSeqLT ∧ ∀ e ∈ reg.entries, e.seq < reg.nextSeq

/-- The dispatch-engine handler obtained from a registry entry, given an
assignment of behaviours to (callback, argument) identities. -/
def HandlerEntry.toHandler {P R : Type}
    (beh : Nat → Nat → P → Option R → P × Option R) (e : HandlerEntry) :
    Handler P R :=
  ⟨e.priority, e.seq, beh e.cb e.arg⟩

/-- The trace step recording a visit of the given handler. -/
def stepOf {P R : Type} (h : Handler P R) : Step :=
  Step.handler h.priority h.seq

/-- The trace step recording a visit of the given registry entry. -/
def entryStep (e : HandlerEntry) : Step :=
  Step.handler e.priority e.seq

/-- The handler-visit steps of a trace, in order. -/
def handlerSteps (tr : List Step) : List Step :=
  tr.filter (fun s => match s with | Step.handler _ _ => true | _ => false)

/-- The two directions a native event can change the address space in
(spec §4.3): map-type (mmap, remap-grow, shmat, sbrk-grow) and unmap-type
(munmap, remap-shrink, shmdt, sbrk-shrink). -/
inductive EventKind where
  | mapType
  | unmapType
deriving DecidableEq

section NativeDispatch

variable {P R : Type}

/-- Modelled from the spec: the genuine-call step of a native dispatch with
the Aggregate Event Synthesizer attached (§4.3).  For an unmap-type event the
address-range-disappeared aggregate fires before the genuine resource is
released, logically at the causal point where the native result becomes
valid, and only when that result indicates success; failed native operations
never produce an aggregate event. -/
def callOrigNative (kind : EventKind) (success : R → Bool) (orig : P → R)
    (st : DispatchState P R) : DispatchState P R :=
  match st.result with
  | none =>
    { st with
      result := some (orig st.params)
      origCalls := st.origCalls + 1
      trace := st.trace ++
        (if kind = EventKind.unmapType ∧ success (orig st.params) = true then
          [Step.fire_vm_unmapped] else []) ++ [Step.orig] }
  | some _ => st

/-- Modelled from the spec: the post-hoc part of the Aggregate Event
Synthesizer (§4.3).  For a map-type event whose final result indicates
success, the address-range-appeared aggregate fires after the chain
completes, with the native operation already done; otherwise nothing fires. -/
def fireMappedIfSuccess (kind : EventKind) (success : R → Bool)
    (st : DispatchState P R) : DispatchState P R :=
  match kind, st.result with
  | EventKind.mapType, some r =>
    if success r then { st with trace := st.trace ++ [Step.fire_vm_mapped] } else st
  | _, _ => st

/-- Modelled from the spec: a full native dispatch (§4.2 step 7 together with
§4.3): the priority chain with the genuine call at the crossing point, the
pre-release disappeared aggregate tied to the genuine call of unmap-type
events, and the post-hoc appeared aggregate of successful map-type events. -/
def ucm_dispatch_native (kind : EventKind) (success : R → Bool) (orig : P → R)
    (chain : List (Handler P R)) (p : P) : DispatchState P R :=
  fireMappedIfSuccess kind success
    (dispatchChainWith (callOrigNative kind success orig) chain false (initState p))

end NativeDispatch

/-- Memory event record, following the union `ucm_event_t` in `ucm.h` lines
43-125: one shape per event type, input parameters verbatim from the call
site plus a distinguished result field for native events.  The result is the
spec's explicit optional (§9, §4.3): `none` when the operation failed by the
type-specific convention (or was never performed), `some` carrying the
successful return value.  The aggregate shapes `vm_mapped` / `vm_unmapped`
carry only an address and a size and have no result field. -/
inductive ucm_event where
  | mmap (result : Option Nat) (address : Nat) (size : Nat) (prot : Int)
      (flags : Int) (fd : Int) (offset : Int)
  | munmap (result : Option Unit) (address : Nat) (size : Nat)
  | mremap (result : Option Nat) (address : Nat) (old_size : Nat)
      (new_size : Nat) (flags : Int)
  | shmat (result : Option Nat) (shmid : Int) (shmaddr : Nat) (shmflg : Int)
  | shmdt (result : Option Unit) (shmaddr : Nat)
  | sbrk (result : Option Nat) (increment : Int)
  | vm_mapped (address : Nat) (size : Nat)
  | vm_unmapped (address : Nat) (size : Nat)
deriving DecidableEq

/-- Modelled from the spec: the Aggregate Event Synthesizer's derivation of
aggregate events from the outcome of one native event (§4.3), whose code is
not among the provided sources.  `shm_seg_size` gives the size of a shared
memory segment by id and `shm_attached_size` the size of the attachment at
an address (both are kernel lookups outside this model).  A successful
map-type outcome yields exactly one address-range-appeared event with the
final address and final size; a successful unmap-type outcome yields exactly
one address-range-disappeared event; a failed outcome yields nothing; an
mremap that changes no size and an sbrk of increment zero yield nothing. -/
def ucm_vm_events (shm_seg_size : Int → Nat) (shm_attached_size : Nat → Nat) :
    ucm_event → List ucm_event
  | ucm_event.mmap (some a) _ sz _ _ _ _ => [ucm_event.vm_mapped a sz]
  | ucm_event.mmap none _ _ _ _ _ _ => []
  | ucm_event.munmap (some _) a sz => [ucm_event.vm_unmapped a sz]
  | ucm_event.munmap none _ _ => []
  | ucm_event.mremap (some a) old_addr old_size new_size _ =>
    if old_size < new_size then [ucm_event.vm_mapped a new_size]
    else if new_size < old_size then [ucm_event.vm_unmapped old_addr old_size]
    else []
  | ucm_event.mremap none _ _ _ _ => []
  | ucm_event.shmat (some a) shmid _ _ => [ucm_event.vm_mapped a (shm_seg_size shmid)]
  | ucm_event.shmat none _ _ _ => []
  | ucm_event.shmdt (some _) a => [ucm_event.vm_unmapped a (shm_attached_size a)]
  | ucm_event.shmdt none _ => []
  | ucm_event.sbrk (some old_brk) inc =>
    if 0 < inc then [ucm_event.vm_mapped old_brk inc.toNat]
    else if inc < 0 then [ucm_event.vm_unmapped (old_brk - inc.natAbs) inc.natAbs]
    else []
  | ucm_event.sbrk none _ => []
  | ucm_event.vm_mapped _ _ => []
  | ucm_event.vm_unmapped _ _ => []

/-! ### Engine lemmas -/

section EngineLemmas

variable {P R : Type}

theorem runHandlers_nil (st : DispatchState P R) : runHandlers [] st = st :=
  rfl

theorem runHandlers_cons (h : Handler P R) (hs : List (Handler P R))
    (st : DispatchState P R) :
    runHandlers (h :: hs) st = runHandlers hs (visitHandler h st) :=
  rfl

theorem runHandlers_append (a b : List (Handler P R)) (st : DispatchState P R) :
    runHandlers (a ++ b) st = runHandlers b (runHandlers a st) := by
  simp [runHandlers, List.foldl_append]

theorem visitHandler_origCalls (h : Handler P R) (st : DispatchState P R) :
    (visitHandler h st).origCalls = st.origCalls :=
  rfl

theorem runHandlers_origCalls (hs : List (Handler P R)) (st : DispatchState P R) :
    (runHandlers hs st).origCalls = st.origCalls := by
  induction hs generalizing st with
  | nil => rfl
  | cons h hs ih => simpa [runHandlers_cons] using ih (visitHandler h st)

theorem visitHandler_trace (h : Handler P R) (st : DispatchState P R) :
    (visitHandler h st).trace = st.trace ++ [stepOf h] :=
  rfl

theorem runHandlers_trace (hs : List (Handler P R)) (st : DispatchState P R) :
    (runHandlers hs st).trace = st.trace ++ hs.map stepOf := by
  induction hs generalizing st with
  | nil => simp [runHandlers_nil]
  | cons h hs ih =>
    simp [runHandlers_cons, ih (visitHandler h st), visitHandler_trace]

theorem dispatchChainWith_crossed (call : DispatchState P R → DispatchState P R)
    (hs : List (Handler P R)) (st : DispatchState P R) :
    dispatchChainWith call hs true st = runHandlers hs st := by
  induction hs generalizing st with
  | nil => rfl
  | cons h hs ih => simpa [dispatchChainWith, runHandlers_cons] using ih (visitHandler h st)

theorem dispatchChainWith_neg (call : DispatchState P R → DispatchState P R)
    (negs rest : List (Handler P R)) (st : DispatchState P R)
    (hneg : ∀ h ∈ negs, h.priority < 0) :
    dispatchChainWith call (negs ++ rest) false st =
      dispatchChainWith call rest false (runHandlers negs st) := by
  induction negs generalizing st with
  | nil => rfl
  | cons h hs ih =>
    have hh : h.priority < 0 := hneg h (List.mem_cons_self h hs)
    have hrest : ∀ x ∈ hs, x.priority < 0 := fun x hx => hneg x (List.mem_cons_of_mem h hx)
    simp only [List.cons_append, dispatchChainWith, if_neg (not_le.mpr hh)]
    simpa [runHandlers_cons] using ih (visitHandler h st) hrest

theorem dispatchChainWith_nonneg (call : DispatchState P R → DispatchState P R)
    (poss : List (Handler P R)) (st : DispatchState P R)
    (hpos : ∀ h ∈ poss, 0 ≤ h.priority) :
    dispatchChainWith call poss false st = runHandlers poss (call st) := by
  cases poss with
  | nil => rfl
  | cons h hs =>
    have hh : 0 ≤ h.priority := hpos h (List.mem_cons_self h hs)
    simp only [dispatchChainWith, if_pos hh, if_neg (Bool.false_ne_true)]
    simp [dispatchChainWith_crossed, runHandlers_cons]

theorem dispatchChainWith_decomp (call : DispatchState P R → DispatchState P R)
    (negs poss : List (Handler P R)) (st : DispatchState P R)
    (hneg : ∀ h ∈ negs, h.priority < 0) (hpos : ∀ h ∈ poss, 0 ≤ h.priority) :
    dispatchChainWith call (negs ++ poss) false st =
      runHandlers poss (call (runHandlers negs st)) := by
  rw [dispatchChainWith_neg call negs poss st hneg,
    dispatchChainWith_nonneg call poss (runHandlers negs st) hpos]

theorem callOrigIfSentinel_of_none (orig : P → R) (st : DispatchState P R)
    (h : st.result = none) :
    callOrigIfSentinel orig st =
      { st with
        result := some (orig st.params)
        origCalls := st.origCalls + 1
        trace := st.trace ++ [Step.orig] } := by
  simp [callOrigIfSentinel, h]

theorem callOrigIfSentinel_of_some (orig : P → R) (st : DispatchState P R)
    (r : R) (h : st.result = some r) :
    callOrigIfSentinel orig st = st := by
  simp [callOrigIfSentinel, h]

theorem callOrigIfSentinel_origCalls_le (orig : P → R) (st : DispatchState P R) :
    (callOrigIfSentinel orig st).origCalls ≤ st.origCalls + 1 := by
  cases h : st.result with
  | none => simp [callOrigIfSentinel_of_none orig st h]
  | some r => simp [callOrigIfSentinel_of_some orig st r h]

theorem dispatchChainWith_origCalls_le
    (call : DispatchState P R → DispatchState P R)
    (hcall : ∀ st : DispatchState P R, (call st).origCalls ≤ st.origCalls + 1)
    (hs : List (Handler P R)) (st : DispatchState P R) :
    (dispatchChainWith call hs false st).origCalls ≤ st.origCalls + 1 := by
  induction hs generalizing st with
  | nil => simpa [dispatchChainWith] using hcall st
  | cons h hs ih =>
    by_cases hp : 0 ≤ h.priority
    · simp only [dispatchChainWith, if_pos hp, if_neg (Bool.false_ne_true)]
      rw [dispatchChainWith_crossed, runHandlers_origCalls, visitHandler_origCalls]
      exact hcall st
    · simp only [dispatchChainWith, if_neg hp, if_neg (Bool.false_ne_true)]
      simpa [visitHandler_origCalls] using ih (visitHandler h st)

theorem dispatchChainWith_origCalls_exact
    (call : DispatchState P R → DispatchState P R)
    (hcall : ∀ st : DispatchState P R, st.result = none →
      (call st).origCalls = st.origCalls + 1)
    (hs : List (Handler P R)) (st : DispatchState P R)
    (hres : st.result = none)
    (hrun : ∀ h ∈ hs, ∀ q, (h.run q none).2 = none) :
    (dispatchChainWith call hs false st).origCalls = st.origCalls + 1 := by
  induction hs generalizing st with
  | nil => simpa [dispatchChainWith] using hcall st hres
  | cons h hs ih =>
    by_cases hp : 0 ≤ h.priority
    · simp only [dispatchChainWith, if_pos hp, if_neg (Bool.false_ne_true)]
      rw [dispatchChainWith_crossed, runHandlers_origCalls, visitHandler_origCalls]
      exact hcall st hres
    · simp only [dispatchChainWith, if_neg hp, if_neg (Bool.false_ne_true)]
      have hres' : (visitHandler h st).result = none := by
        simp [visitHandler, hres, hrun h (List.mem_cons_self h hs) st.params]
      have := ih (visitHandler h st) hres'
        (fun x hx q => hrun x (List.mem_cons_of_mem h hx) q)
      simpa [visitHandler_origCalls] using this

end EngineLemmas

section MoreEngineLemmas

variable {P R : Type}

theorem runHandlers_keep_result (hs : List (Handler P R)) (st : DispatchState P R)
    (v : R) (hkeep : ∀ h ∈ hs, ∀ q r, (h.run q (some r)).2 = some r)
    (hv : st.result = some v) : (runHandlers hs st).result = some v := by
  induction hs generalizing st with
  | nil => simpa [runHandlers_nil] using hv
  | cons h hs ih =>
    rw [runHandlers_cons]
    have hv' : (visitHandler h st).result = some v := by
      simp [visitHandler, hv, hkeep h (List.mem_cons_self h hs) st.params v]
    exact ih (visitHandler h st)
      (fun x hx => hkeep x (List.mem_cons_of_mem h hx)) hv'

theorem orig_not_mem_map_stepOf (hs : List (Handler P R)) :
    Step.orig ∉ hs.map stepOf := by
  simp [List.mem_map, stepOf]

end MoreEngineLemmas

/-! ### Claims C1, C2, C3 -/

/-- C1 (as frozen, refuted): the claim says the genuine operation is invoked
exactly once per dispatch regardless of the registered handlers.  With a
single priority −10 handler that fully emulates the mmap by setting the
result field, the genuine operation is invoked zero times, not once. -/
theorem claim_C1_counterexample :
    (ucm_event_dispatch (fun _ : Nat => (0 : Nat))
      [⟨-10, 0, fun q _ => (q, some 42)⟩] 0).origCalls ≠ 1 := by
  decide

/-- C1 (amended): for every dispatch of a native event, the genuine operation
is invoked at most once, and exactly once whenever no handler sets the result
field; in particular an empty chain dispatches directly to the genuine
operation, which then runs exactly once. -/
theorem claim_C1 {P R : Type} (orig : P → R) (chain : List (Handler P R)) (p : P) :
    (ucm_event_dispatch orig chain p).origCalls ≤ 1 ∧
    (chain = [] →
      ucm_event_dispatch orig chain p = ⟨p, some (orig p), 1, [Step.orig]⟩) ∧
    ((∀ h ∈ chain, ∀ q, (h.run q none).2 = none) →
      (ucm_event_dispatch orig chain p).origCalls = 1) := by
  refine ⟨?_, ?_, ?_⟩
  · have := dispatchChainWith_origCalls_le (callOrigIfSentinel orig)
      (callOrigIfSentinel_origCalls_le orig) chain (initState p)
    simpa [ucm_event_dispatch, initState] using this
  · rintro rfl
    simp [ucm_event_dispatch, dispatchChainWith, callOrigIfSentinel, initState]
  · intro hrun
    have := dispatchChainWith_origCalls_exact (callOrigIfSentinel orig)
      (fun st hst => by simp [callOrigIfSentinel_of_none orig st hst])
      chain (initState p) rfl hrun
    simpa [ucm_event_dispatch, initState] using this

/-- Witness for C1: a concrete empty chain dispatches directly to the genuine
operation, and a concrete one-handler chain whose handler never sets the
result leads to exactly one genuine invocation. -/
theorem claim_C1_witness :
    ucm_event_dispatch (fun _ : Nat => (5 : Nat)) ([] : List (Handler Nat Nat)) 0 =
      ⟨0, some 5, 1, [Step.orig]⟩ ∧
    (ucm_event_dispatch (fun _ : Nat => (5 : Nat))
      [⟨-1, 0, fun q r => (q, r)⟩] 0).origCalls = 1 :=
  ⟨(claim_C1 (fun _ : Nat => (5 : Nat)) [] 0).2.1 rfl,
   (claim_C1 (fun _ : Nat => (5 : Nat)) [⟨-1, 0, fun q r => (q, r)⟩] 0).2.2
     (by intro h hh q; rw [List.mem_singleton] at hh; subst hh; rfl)⟩

/-- C2: if some negative-priority handler sets the result to a valid value
before the crossing point, the Original-Call Gateway is never invoked for
that dispatch and (with the post handlers obeying the header's contract of
not touching a valid result) the dispatch returns the handler-produced
result to the call site. -/
theorem claim_C2 {P R : Type} (orig : P → R) (negs poss : List (Handler P R))
    (p : P) (v : R)
    (hneg : ∀ h ∈ negs, h.priority < 0)
    (hpos : ∀ h ∈ poss, 0 ≤ h.priority)
    (hkeep : ∀ h ∈ poss, ∀ q r, (h.run q (some r)).2 = some r)
    (hv : (runHandlers negs (initState p)).result = some v) :
    (ucm_event_dispatch orig (negs ++ poss) p).result = some v ∧
    (ucm_event_dispatch orig (negs ++ poss) p).origCalls = 0 ∧
    Step.orig ∉ (ucm_event_dispatch orig (negs ++ poss) p).trace := by
  have hd : ucm_event_dispatch orig (negs ++ poss) p =
      runHandlers poss (runHandlers negs (initState p)) := by
    rw [ucm_event_dispatch,
      dispatchChainWith_decomp (callOrigIfSentinel orig) negs poss (initState p) hneg hpos,
      callOrigIfSentinel_of_some orig (runHandlers negs (initState p)) v hv]
  refine ⟨?_, ?_, ?_⟩
  · rw [hd]
    exact runHandlers_keep_result poss _ v hkeep hv
  · rw [hd, runHandlers_origCalls, runHandlers_origCalls]
    rfl
  · rw [hd, runHandlers_trace, runHandlers_trace]
    intro hmem
    rcases List.mem_append.mp hmem with hmem | hmem
    · rcases List.mem_append.mp hmem with hmem | hmem
      · simp [initState] at hmem
      · exact orig_not_mem_map_stepOf negs hmem
    · exact orig_not_mem_map_stepOf poss hmem

/-- Witness for C2: a concrete priority −10 handler sets the result to 42;
the dispatch returns 42, the gateway never runs, and no gateway step appears
in the trace. -/
theorem claim_C2_witness :
    (ucm_event_dispatch (fun _ : Nat => (0 : Nat))
      ([⟨-10, 0, fun q _ => (q, some 42)⟩] ++ [⟨3, 1, fun q r => (q, r)⟩])
      0).result = some 42 ∧
    (ucm_event_dispatch (fun _ : Nat => (0 : Nat))
      ([⟨-10, 0, fun q _ => (q, some 42)⟩] ++ [⟨3, 1, fun q r => (q, r)⟩])
      0).origCalls = 0 :=
  have h := claim_C2 (fun _ : Nat => (0 : Nat))
    [⟨-10, 0, fun q _ => (q, some 42)⟩] [⟨3, 1, fun q r => (q, r)⟩] 0 42
    (by intro h hh; rw [List.mem_singleton] at hh; subst hh; decide)
    (by intro h hh; rw [List.mem_singleton] at hh; subst hh; decide)
    (by intro h hh q r; rw [List.mem_singleton] at hh; subst hh; rfl)
    (by rfl)
  ⟨h.1, h.2.1⟩

/-- C3: in a dispatch of a chain whose negative-priority part precedes its
non-negative part (the single ascending-priority chain), every negative
handler is visited before the genuine operation, every non-negative handler
after it, and the genuine call happens exactly at the crossing (or after the
full chain when no handler has non-negative priority, the crossing point
degenerating to the end of the chain), precisely when the result is still
the sentinel there. -/
theorem claim_C3 {P R : Type} (orig : P → R) (negs poss : List (Handler P R))
    (p : P)
    (hneg : ∀ h ∈ negs, h.priority < 0)
    (hpos : ∀ h ∈ poss, 0 ≤ h.priority) :
    (ucm_event_dispatch orig (negs ++ poss) p).trace =
      negs.map stepOf ++
        (if (runHandlers negs (initState p)).result.isNone then [Step.orig] else []) ++
        poss.map stepOf := by
  rw [ucm_event_dispatch,
    dispatchChainWith_decomp (callOrigIfSentinel orig) negs poss (initState p) hneg hpos,
    runHandlers_trace]
  cases hres : (runHandlers negs (initState p)).result with
  | none =>
    rw [callOrigIfSentinel_of_none orig _ hres]
    simp [runHandlers_trace, initState, hres]
  | some r =>
    rw [callOrigIfSentinel_of_some orig _ r hres]
    simp [runHandlers_trace, initState, hres]

/-- Witness for C3: a concrete chain with one priority −1 handler and one
priority 2 handler, neither of which sets the result, is traced as pre
handler, genuine call, post handler. -/
theorem claim_C3_witness :
    (ucm_event_dispatch (fun _ : Nat => (5 : Nat))
      ([⟨-1, 0, fun q r => (q, r)⟩] ++ [⟨2, 1, fun q r => (q, r)⟩]) 0).trace =
      [Step.handler (-1) 0, Step.orig, Step.handler 2 1] :=
  (claim_C3 (fun _ : Nat => (5 : Nat)) [⟨-1, 0, fun q r => (q, r)⟩]
    [⟨2, 1, fun q r => (q, r)⟩] 0
    (by intro h hh; rw [List.mem_singleton] at hh; subst hh; decide)
    (by intro h hh; rw [List.mem_singleton] at hh; subst hh; decide)).trans
    (by decide)

/-! ### Registry lemmas -/

theorem prioSeqLT_congr (a b a' b' : HandlerEntry)
    (hpa : a'.priority = a.priority) (hsa : a'.seq = a.seq)
    (hpb : b'.priority = b.priority) (hsb : b'.seq = b.seq) :
    prioSeqLT a b → prioSeqLT a' b' := by
  unfold prioSeqLT
  rw [hpa, hsa, hpb, hsb]
  exact id

theorem mem_insertEntry (e y : HandlerEntry) (l : List HandlerEntry) :
    y ∈ insertEntry e l ↔ y = e ∨ y ∈ l := by
  induction l with
  | nil => simp [insertEntry]
  | cons x xs ih =>
    by_cases h : x.priority ≤ e.priority
    · simp only [insertEntry, if_pos h, List.mem_cons, ih]
      tauto
    · simp only [insertEntry, if_neg h, List.mem_cons]

theorem insertEntry_pairwise (e : HandlerEntry) (l : List HandlerEntry)
    (hl : l.Pairwise prioSeqLT) (hseq : ∀ x ∈ l, x.seq < e.seq) :
    (insertEntry e l).Pairwise prioSeqLT := by
  induction l with
  | nil => simp [insertEntry, List.pairwise_cons]
  | cons x xs ih =>
    rcases List.pairwise_cons.mp hl with ⟨hx, hxs⟩
    by_cases h : x.priority ≤ e.priority
    · simp only [insertEntry, if_pos h]
      refine List.pairwise_cons.mpr ⟨?_, ih hxs
        (fun y hy => hseq y (List.mem_cons_of_mem x hy))⟩
      intro y hy
      rcases (mem_insertEntry e y xs).mp hy with rfl | hy'
      · rcases lt_or_eq_of_le h with hlt | heq
        · exact Or.inl hlt
        · exact Or.inr ⟨heq, hseq x (List.mem_cons_self x xs)⟩
      · exact hx y hy'
    · simp only [insertEntry, if_neg h]
      refine List.pairwise_cons.mpr ⟨?_, hl⟩
      intro y hy
      rcases List.mem_cons.mp hy with rfl | hy'
      · exact Or.inl (not_le.mp h)
      · rcases hx y hy' with hlt | ⟨heq, _⟩
        · exact Or.inl (lt_trans (not_le.mp h) hlt)
        · exact Or.inl (heq ▸ not_le.mp h)

theorem pairwise_filterMap_entries (f : HandlerEntry → Option HandlerEntry)
    (hf : ∀ a b, f a = some b → b.priority = a.priority ∧ b.seq = a.seq)
    (l : List HandlerEntry) (hl : l.Pairwise prioSeqLT) :
    (l.filterMap f).Pairwise prioSeqLT := by
  induction l with
  | nil => simp
  | cons x xs ih =>
    rcases List.pairwise_cons.mp hl with ⟨hx, hxs⟩
    cases hfx : f x with
    | none => simpa [List.filterMap_cons, hfx] using ih hxs
    | some b =>
      rw [List.filterMap_cons, hfx]
      refine List.pairwise_cons.mpr ⟨?_, ih hxs⟩
      intro c hc
      rcases List.mem_filterMap.mp hc with ⟨a, ha, hfa⟩
      rcases hf x b hfx with ⟨hbp, hbs⟩
      rcases hf a c hfa with ⟨hcp, hcs⟩
      exact prioSeqLT_congr x a b c hbp hbs hcp hcs (hx a ha)

theorem unsetFun_eq (events cb arg : Nat) (a b : HandlerEntry)
    (hab : (if a.cb = cb ∧ a.arg = arg then
        if (removeBits a events).events = 0 then none else some (removeBits a events)
      else some a) = some b) :
    b.priority = a.priority ∧ b.seq = a.seq ∧ b.cb = a.cb ∧ b.arg = a.arg := by
  by_cases hm : a.cb = cb ∧ a.arg = arg
  · rw [if_pos hm] at hab
    by_cases hz : (removeBits a events).events = 0
    · rw [if_pos hz] at hab
      cases hab
    · rw [if_neg hz] at hab
      have hb := Option.some.inj hab
      subst hb
      exact ⟨rfl, rfl, rfl, rfl⟩
  · rw [if_neg hm] at hab
    have hb := Option.some.inj hab
    subst hb
    exact ⟨rfl, rfl, rfl, rfl⟩

theorem regInv_empty : RegInv emptyRegistry := by
  simp [RegInv, emptyRegistry]

theorem regInv_set (allocOk : Bool) (reg : Registry) (events : Nat)
    (priority : Int) (cb arg : Nat) (h : RegInv reg) :
    RegInv (ucm_set_event_handler allocOk reg events priority cb arg).2 := by
  rcases h with ⟨hpw, hsq⟩
  unfold ucm_set_event_handler
  split
  · exact ⟨hpw, hsq⟩
  · split
    · exact ⟨hpw, hsq⟩
    · refine ⟨insertEntry_pairwise _ _ hpw (fun x hx => hsq x hx), ?_⟩
      intro y hy
      rcases (mem_insertEntry _ y _).mp hy with rfl | hy'
      · exact Nat.lt_succ_self _
      · exact lt_trans (hsq y hy') (Nat.lt_succ_self _)

theorem regInv_unset (reg : Registry) (events cb arg : Nat) (h : RegInv reg) :
    RegInv (ucm_unset_event_handler reg events cb arg) := by
  rcases h with ⟨hpw, hsq⟩
  refine ⟨pairwise_filterMap_entries _
    (fun a b hab => ⟨(unsetFun_eq events cb arg a b hab).1,
      (unsetFun_eq events cb arg a b hab).2.1⟩) _ hpw, ?_⟩
  intro e he
  rcases List.mem_filterMap.mp he with ⟨a, ha, hfa⟩
  have hseq := (unsetFun_eq events cb arg a e hfa).2.1
  exact hseq ▸ hsq a ha

theorem regInv_applyOp (reg : Registry) (op : RegOp) (h : RegInv reg) :
    RegInv (applyOp reg op) := by
  cases op with
  | set allocOk events priority cb arg => exact regInv_set allocOk reg events priority cb arg h
  | unset events cb arg => exact regInv_unset reg events cb arg h

theorem regInv_foldl (ops : List RegOp) (reg : Registry) (h : RegInv reg) :
    RegInv (ops.foldl applyOp reg) := by
  induction ops generalizing reg with
  | nil => exact h
  | cons op ops ih => exact ih (applyOp reg op) (regInv_applyOp reg op h)

theorem regInv_applyOps (ops : List RegOp) : RegInv (applyOps ops) :=
  regInv_foldl ops emptyRegistry regInv_empty

theorem mem_takeWhile_neg (l : List HandlerEntry)
    (e : HandlerEntry) (he : e ∈ l.takeWhile (fun e => decide (e.priority < 0))) :
    e.priority < 0 := by
  simpa using List.mem_takeWhile_imp he

theorem mem_dropWhile_nonneg (l : List HandlerEntry) (hl : l.Pairwise prioSeqLT) :
    ∀ e ∈ l.dropWhile (fun e => decide (e.priority < 0)), 0 ≤ e.priority := by
  induction l with
  | nil => simp
  | cons x xs ih =>
    rcases List.pairwise_cons.mp hl with ⟨hx, hxs⟩
    by_cases hp : x.priority < 0
    · simpa [List.dropWhile_cons, hp] using ih hxs
    · intro e he
      rw [List.dropWhile_cons, if_neg (by simpa using hp)] at he
      rcases List.mem_cons.mp he with rfl | he'
      · exact not_lt.mp hp
      · rcases hx e he' with hlt | ⟨heq, _⟩
        · exact le_of_lt (lt_of_le_of_lt (not_lt.mp hp) hlt)
        · exact heq ▸ not_lt.mp hp

/-! ### Trace projection lemmas and claim C4 -/

theorem handlerSteps_append (a b : List Step) :
    handlerSteps (a ++ b) = handlerSteps a ++ handlerSteps b := by
  simp [handlerSteps]

theorem handlerSteps_orig_nil : handlerSteps [Step.orig] = [] :=
  rfl

theorem handlerSteps_orig_cons (l : List Step) :
    handlerSteps (Step.orig :: l) = handlerSteps l :=
  rfl

theorem handlerSteps_map_stepOf {P R : Type} (hs : List (Handler P R)) :
    handlerSteps (hs.map stepOf) = hs.map stepOf := by
  induction hs with
  | nil => rfl
  | cons h t ih =>
    have hcons : handlerSteps (stepOf h :: List.map stepOf t) =
        stepOf h :: handlerSteps (List.map stepOf t) := rfl
    rw [List.map_cons, hcons, ih]

theorem handlerSteps_dispatch {P R : Type} (orig : P → R)
    (negs poss : List (Handler P R)) (p : P)
    (hneg : ∀ h ∈ negs, h.priority < 0) (hpos : ∀ h ∈ poss, 0 ≤ h.priority) :
    handlerSteps (ucm_event_dispatch orig (negs ++ poss) p).trace =
      (negs ++ poss).map stepOf := by
  rw [ucm_event_dispatch,
    dispatchChainWith_decomp (callOrigIfSentinel orig) negs poss (initState p) hneg hpos,
    runHandlers_trace]
  cases hres : (runHandlers negs (initState p)).result with
  | none =>
    rw [callOrigIfSentinel_of_none orig _ hres]
    simp [runHandlers_trace, initState, handlerSteps_append, handlerSteps_map_stepOf,
      handlerSteps_orig_nil, handlerSteps_orig_cons]
  | some r =>
    rw [callOrigIfSentinel_of_some orig _ r hres]
    simp [runHandlers_trace, initState, handlerSteps_append, handlerSteps_map_stepOf]

theorem handlerSteps_entry_chain {P R : Type} (chain : List HandlerEntry)
    (hpw : chain.Pairwise prioSeqLT)
    (beh : Nat → Nat → P → Option R → P × Option R) (orig : P → R) (p : P) :
    handlerSteps (ucm_event_dispatch orig
        (chain.map (HandlerEntry.toHandler beh)) p).trace =
      chain.map entryStep := by
  have hsplit : chain.takeWhile (fun e => decide (e.priority < 0)) ++
      chain.dropWhile (fun e => decide (e.priority < 0)) = chain :=
    List.takeWhile_append_dropWhile _ _
  have hfun : stepOf ∘ HandlerEntry.toHandler (P := P) (R := R) beh = entryStep := by
    funext e
    rfl
  conv_lhs => rw [← hsplit]
  conv_rhs => rw [← hsplit]
  rw [List.map_append, handlerSteps_dispatch orig _ _ p
    (fun h hh => by
      rcases List.mem_map.mp hh with ⟨e, he, rfl⟩
      exact mem_takeWhile_neg chain e he)
    (fun h hh => by
      rcases List.mem_map.mp hh with ⟨e, he, rfl⟩
      exact mem_dropWhile_nonneg chain hpw e he),
    ← List.map_append, hsplit, List.map_map, hfun]

/-- C4: for a registry built by any history of registrations and removals,
the chain of every event bit is in the ordering contract's total order
(priority ascending, ties broken by registration order), and a dispatch over
that chain visits handlers exactly in chain order: the handler steps of the
dispatch trace are precisely the chain, in order.  Thus handlers with
priorities p1 < p2 sharing a bit fire in that order, and the visit order is
a function of the registry state alone, hence deterministic across repeated
dispatches. -/
theorem claim_C4 (ops : List RegOp) (bit : Nat) {P R : Type}
    (beh : Nat → Nat → P → Option R → P × Option R) (orig : P → R) (p : P) :
    (chainFor (applyOps ops) bit).Pairwise prioSeqLT ∧
    handlerSteps (ucm_event_dispatch orig
        ((chainFor (applyOps ops) bit).map (HandlerEntry.toHandler beh)) p).trace =
      (chainFor (applyOps ops) bit).map entryStep := by
  have hpw : (chainFor (applyOps ops) bit).Pairwise prioSeqLT :=
    (regInv_applyOps ops).1.filter _
  exact ⟨hpw, handlerSteps_entry_chain _ hpw beh orig p⟩

/-! ### Claim C5 -/

/-- C5: `ucm_set_event_handler` fails with invalid-argument whenever the
event mask is empty or contains an aggregate (read-only) bit, fails with
out-of-memory when entry allocation fails, and on any failure the registry —
hence every bit's chain — is left untouched: registration is all-or-nothing. -/
theorem claim_C5 (allocOk : Bool) (reg : Registry) (events : Nat)
    (priority : Int) (cb arg : Nat) :
    ((events = 0 ∨ events &&& UCM_AGGREGATE_EVENT_MASK ≠ 0) →
      (ucm_set_event_handler allocOk reg events priority cb arg).1 =
        ucs_status.UCS_ERR_INVALID_ARGUMENT) ∧
    (events ≠ 0 → events &&& UCM_AGGREGATE_EVENT_MASK = 0 → allocOk = false →
      (ucm_set_event_handler allocOk reg events priority cb arg).1 =
        ucs_status.UCS_ERR_OUT_OF_MEMORY) ∧
    ((ucm_set_event_handler allocOk reg events priority cb arg).1 ≠
        ucs_status.UCS_OK →
      (ucm_set_event_handler allocOk reg events priority cb arg).2 = reg ∧
      ∀ bit, chainFor (ucm_set_event_handler allocOk reg events priority cb arg).2 bit =
        chainFor reg bit) := by
  refine ⟨?_, ?_, ?_⟩
  · intro h
    unfold ucm_set_event_handler
    rw [if_pos h]
  · intro h1 h2 h3
    unfold ucm_set_event_handler
    rw [if_neg (not_or.mpr ⟨h1, not_not_intro h2⟩), if_pos h3]
  · intro hfail
    by_cases hinv : events = 0 ∨ events &&& UCM_AGGREGATE_EVENT_MASK ≠ 0
    · unfold ucm_set_event_handler
      rw [if_pos hinv]
      exact ⟨rfl, fun bit => rfl⟩
    · by_cases hall : allocOk = false
      · unfold ucm_set_event_handler
        rw [if_neg hinv, if_pos hall]
        exact ⟨rfl, fun bit => rfl⟩
      · exfalso
        apply hfail
        unfold ucm_set_event_handler
        rw [if_neg hinv, if_neg hall]

/-- Witness for C5: concrete failing registrations — empty mask, and a valid
mask with a failing allocator — return the right status and leave the fresh
registry untouched. -/
theorem claim_C5_witness :
    (ucm_set_event_handler true emptyRegistry 0 0 0 0).1 =
      ucs_status.UCS_ERR_INVALID_ARGUMENT ∧
    (ucm_set_event_handler false emptyRegistry 1 0 0 0).1 =
      ucs_status.UCS_ERR_OUT_OF_MEMORY ∧
    (ucm_set_event_handler false emptyRegistry 1 0 0 0).2 = emptyRegistry :=
  ⟨(claim_C5 true emptyRegistry 0 0 0 0).1 (Or.inl rfl),
   (claim_C5 false emptyRegistry 1 0 0 0).2.1 (by decide) (by decide) rfl,
   ((claim_C5 false emptyRegistry 1 0 0 0).2.2 (by decide)).1⟩

/-! ### Bitwise lemmas and claim C6 -/

theorem land_remove_self (a b : Nat) : (a ^^^ a &&& b) &&& b = 0 := by
  apply Nat.eq_of_testBit_eq
  intro i
  rw [Nat.testBit_and, Nat.testBit_xor, Nat.testBit_and, Nat.zero_testBit]
  cases a.testBit i <;> cases b.testBit i <;> rfl

theorem land_remove_other (a ev bit : Nat) (h : bit &&& ev = 0) :
    (a ^^^ a &&& ev) &&& bit = a &&& bit := by
  apply Nat.eq_of_testBit_eq
  intro i
  have hi : (bit.testBit i && ev.testBit i) = false := by
    rw [← Nat.testBit_and, h]
    exact Nat.zero_testBit i
  rw [Nat.testBit_and, Nat.testBit_xor, Nat.testBit_and, Nat.testBit_and]
  revert hi
  cases a.testBit i <;> cases bit.testBit i <;> cases ev.testBit i <;> decide

theorem removeBits_idem (e : HandlerEntry) (ev : Nat) :
    removeBits (removeBits e ev) ev = removeBits e ev := by
  cases e
  simp [removeBits, land_remove_self, Nat.xor_zero]

theorem removeBits_land_events (e : HandlerEntry) (ev : Nat) :
    (removeBits e ev).events &&& ev = 0 :=
  land_remove_self e.events ev

theorem filterMap_self_of_no_match (cb arg : Nat) (events : Nat)
    (l : List HandlerEntry) (h : ∀ e ∈ l, ¬(e.cb = cb ∧ e.arg = arg)) :
    (l.filterMap (fun e =>
      if e.cb = cb ∧ e.arg = arg then
        if (removeBits e events).events = 0 then none else some (removeBits e events)
      else some e)) = l := by
  induction l with
  | nil => rfl
  | cons x xs ih =>
    rw [List.filterMap_cons, if_neg (h x (List.mem_cons_self x xs))]
    rw [ih (fun e he => h e (List.mem_cons_of_mem x he))]

theorem filterMap_idem_entries (f : HandlerEntry → Option HandlerEntry)
    (hf : ∀ a b, f a = some b → f b = some b) (l : List HandlerEntry) :
    (l.filterMap f).filterMap f = l.filterMap f := by
  induction l with
  | nil => rfl
  | cons x xs ih =>
    cases hfx : f x with
    | none => rw [List.filterMap_cons, hfx, ih]
    | some b =>
      rw [List.filterMap_cons, hfx, List.filterMap_cons, hf x b hfx, ih]

theorem unset_chain_untouched (events cb arg bit : Nat) (hbit : bit &&& events = 0)
    (l : List HandlerEntry) :
    ((l.filterMap (fun e =>
        if e.cb = cb ∧ e.arg = arg then
          if (removeBits e events).events = 0 then none else some (removeBits e events)
        else some e)).filter
          (fun e => decide (e.events &&& bit ≠ 0))).map
        (fun e => (e.priority, e.seq, e.cb, e.arg)) =
      (l.filter (fun e => decide (e.events &&& bit ≠ 0))).map
        (fun e => (e.priority, e.seq, e.cb, e.arg)) := by
  induction l with
  | nil => rfl
  | cons x xs ih =>
    have hsame : (removeBits x events).events &&& bit = x.events &&& bit := by
      have := land_remove_other x.events events bit
        (by rw [Nat.land_comm] at hbit ⊢; exact hbit)
      simpa [removeBits] using this
    by_cases hm : x.cb = cb ∧ x.arg = arg
    · rw [List.filterMap_cons, if_pos hm]
      by_cases hz : (removeBits x events).events = 0
      · rw [if_pos hz]
        have hx0 : x.events &&& bit = 0 := by
          rw [← hsame, hz]
          apply Nat.eq_of_testBit_eq
          intro i
          rw [Nat.testBit_and, Nat.zero_testBit]
          rfl
        rw [List.filter_cons_of_neg (by simpa using hx0)]
        exact ih
      · rw [if_neg hz]
        by_cases hin : x.events &&& bit ≠ 0
        · rw [List.filter_cons_of_pos (by simpa [hsame] using hin),
            List.filter_cons_of_pos (by simpa using hin), List.map_cons,
            List.map_cons, ih]
          rfl
        · rw [List.filter_cons_of_neg (by simpa [hsame] using hin),
            List.filter_cons_of_neg (by simpa using hin)]
          exact ih
    · rw [List.filterMap_cons, if_neg hm]
      by_cases hin : x.events &&& bit ≠ 0
      · rw [List.filter_cons_of_pos (by simpa using hin),
          List.filter_cons_of_pos (by simpa using hin), List.map_cons,
          List.map_cons, ih]
      · rw [List.filter_cons_of_neg (by simpa using hin),
          List.filter_cons_of_neg (by simpa using hin)]
        exact ih

theorem unsetFun_idem (events cb arg : Nat) (a b : HandlerEntry)
    (hab : (if a.cb = cb ∧ a.arg = arg then
        if (removeBits a events).events = 0 then none else some (removeBits a events)
      else some a) = some b) :
    (if b.cb = cb ∧ b.arg = arg then
        if (removeBits b events).events = 0 then none else some (removeBits b events)
      else some b) = some b := by
  by_cases hm : a.cb = cb ∧ a.arg = arg
  · rw [if_pos hm] at hab
    by_cases hz : (removeBits a events).events = 0
    · rw [if_pos hz] at hab
      cases hab
    · rw [if_neg hz] at hab
      have hb := Option.some.inj hab
      subst hb
      rw [if_pos ⟨hm.1, hm.2⟩, removeBits_idem, if_neg hz]
  · rw [if_neg hm] at hab
    have hb := Option.some.inj hab
    subst hb
    rw [if_neg hm]

theorem unsetFun_matched (events cb arg : Nat) (a b : HandlerEntry)
    (hab : (if a.cb = cb ∧ a.arg = arg then
        if (removeBits a events).events = 0 then none else some (removeBits a events)
      else some a) = some b)
    (hm : b.cb = cb ∧ b.arg = arg) :
    b.events &&& events = 0 := by
  by_cases hma : a.cb = cb ∧ a.arg = arg
  · rw [if_pos hma] at hab
    by_cases hz : (removeBits a events).events = 0
    · rw [if_pos hz] at hab
      cases hab
    · rw [if_neg hz] at hab
      have hb := Option.some.inj hab
      subst hb
      exact removeBits_land_events a events
  · rw [if_neg hma] at hab
    have hb := Option.some.inj hab
    subst hb
    exact absurd hm hma

/-- C6: `ucm_unset_event_handler` returns no status (by its type it cannot
fail) and behaves idempotently: removing a (callback, argument) pair that is
not registered leaves the registry exactly as it was; repeating a removal
changes nothing further; chains of bits outside the removal mask keep the
same handlers in the same order; after the call the pair is gone from the
chain of every requested bit; and a matching entry is retired completely
only when all of its bits are removed — if any bit survives, the entry stays,
holding exactly the surviving bits. -/
theorem claim_C6 (reg : Registry) (events cb arg : Nat) :
    ((∀ e ∈ reg.entries, ¬(e.cb = cb ∧ e.arg = arg)) →
      ucm_unset_event_handler reg events cb arg = reg) ∧
    ucm_unset_event_handler (ucm_unset_event_handler reg events cb arg) events cb arg =
      ucm_unset_event_handler reg events cb arg ∧
    (∀ bit, bit &&& events = 0 →
      chainHandlers (ucm_unset_event_handler reg events cb arg) bit =
        chainHandlers reg bit) ∧
    (∀ bit, bit &&& events = bit →
      ∀ e' ∈ chainFor (ucm_unset_event_handler reg events cb arg) bit,
        ¬(e'.cb = cb ∧ e'.arg = arg)) ∧
    (∀ e ∈ reg.entries, e.cb = cb → e.arg = arg →
      (removeBits e events).events ≠ 0 →
      removeBits e events ∈ (ucm_unset_event_handler reg events cb arg).entries) := by
  refine ⟨?_, ?_, ?_, ?_, ?_⟩
  · intro h
    cases reg with
    | mk entries nextSeq =>
      exact congrArg (fun l => Registry.mk l nextSeq)
        (filterMap_self_of_no_match cb arg events entries h)
  · cases reg with
    | mk entries nextSeq =>
      exact congrArg (fun l => Registry.mk l nextSeq)
        (filterMap_idem_entries _ (fun a b => unsetFun_idem events cb arg a b) entries)
  · intro bit hbit
    exact unset_chain_untouched events cb arg bit hbit reg.entries
  · intro bit hbit e' he' hm
    have hmem : e' ∈ (ucm_unset_event_handler reg events cb arg).entries :=
      List.mem_of_mem_filter he'
    have hpe : e'.events &&& bit ≠ 0 := by
      simpa using List.of_mem_filter he'
    rcases List.mem_filterMap.mp hmem with ⟨a, ha, hfa⟩
    have hz : e'.events &&& events = 0 := unsetFun_matched events cb arg a e' hfa hm
    apply hpe
    calc e'.events &&& bit = e'.events &&& (bit &&& events) := by rw [hbit]
      _ = e'.events &&& (events &&& bit) := by rw [Nat.land_comm bit events]
      _ = e'.events &&& events &&& bit := by rw [Nat.land_assoc]
      _ = 0 &&& bit := by rw [hz]
      _ = 0 := Nat.zero_and bit
  · intro e he hcb harg hnz
    refine List.mem_filterMap.mpr ⟨e, he, ?_⟩
    rw [if_pos ⟨hcb, harg⟩, if_neg hnz]

/-- Witness for C6: on a concrete registry holding one entry for bits 1 and 2
with callback 7 / argument 8, removing bit 1 leaves the bit-2 chain as it
was and keeps the entry with its surviving bit, while removing from an empty
registry is a no-op. -/
theorem claim_C6_witness :
    chainHandlers (ucm_unset_event_handler ⟨[⟨3, -5, 7, 8, 0⟩], 1⟩ 1 7 8) 2 =
      chainHandlers ⟨[⟨3, -5, 7, 8, 0⟩], 1⟩ 2 ∧
    removeBits ⟨3, -5, 7, 8, 0⟩ 1 ∈
      (ucm_unset_event_handler ⟨[⟨3, -5, 7, 8, 0⟩], 1⟩ 1 7 8).entries ∧
    ucm_unset_event_handler ⟨[], 0⟩ 5 1 2 = ⟨[], 0⟩ :=
  ⟨(claim_C6 ⟨[⟨3, -5, 7, 8, 0⟩], 1⟩ 1 7 8).2.2.1 2 (by decide),
   (claim_C6 ⟨[⟨3, -5, 7, 8, 0⟩], 1⟩ 1 7 8).2.2.2.2 ⟨3, -5, 7, 8, 0⟩
     (by decide) rfl rfl (by decide),
   (claim_C6 ⟨[], 0⟩ 5 1 2).1 (fun e he => absurd he (List.not_mem_nil e))⟩

/-! ### Claim C7: the aggregate-event synthesizer -/

/-- C7: a native map-type event (mmap, remap-grow, shmat, sbrk-grow) whose
final result indicates success synthesizes exactly one address-range-appeared
(`vm_mapped`) aggregate event carrying the final address and final size of
the mapping, while a native event whose result indicates failure synthesizes
no aggregate event at all. -/
theorem claim_C7 (ssz : Int → Nat) (asz : Nat → Nat) :
    (∀ a addr sz prot flags fd off,
      ucm_vm_events ssz asz (ucm_event.mmap (some a) addr sz prot flags fd off) =
        [ucm_event.vm_mapped a sz]) ∧
    (∀ addr sz prot flags fd off,
      ucm_vm_events ssz asz (ucm_event.mmap none addr sz prot flags fd off) = []) ∧
    (∀ a addr osz nsz fl, osz < nsz →
      ucm_vm_events ssz asz (ucm_event.mremap (some a) addr osz nsz fl) =
        [ucm_event.vm_mapped a nsz]) ∧
    (∀ addr osz nsz fl,
      ucm_vm_events ssz asz (ucm_event.mremap none addr osz nsz fl) = []) ∧
    (∀ a shmid shmaddr shmflg,
      ucm_vm_events ssz asz (ucm_event.shmat (some a) shmid shmaddr shmflg) =
        [ucm_event.vm_mapped a (ssz shmid)]) ∧
    (∀ shmid shmaddr shmflg,
      ucm_vm_events ssz asz (ucm_event.shmat none shmid shmaddr shmflg) = []) ∧
    (∀ ob inc, 0 < inc →
      ucm_vm_events ssz asz (ucm_event.sbrk (some ob) inc) =
        [ucm_event.vm_mapped ob inc.toNat]) ∧
    (∀ inc, ucm_vm_events ssz asz (ucm_event.sbrk none inc) = []) := by
  refine ⟨?_, ?_, ?_, ?_, ?_, ?_, ?_, ?_⟩ <;> intros <;> simp_all [ucm_vm_events]

/-- Witness for C7: a concrete growing mremap and a concrete growing sbrk
each synthesize exactly one appeared event with the final address and size. -/
theorem claim_C7_witness :
    ucm_vm_events (fun _ => 4096) (fun _ => 4096)
      (ucm_event.mremap (some 7) 100 10 20 0) = [ucm_event.vm_mapped 7 20] ∧
    ucm_vm_events (fun _ => 4096) (fun _ => 4096)
      (ucm_event.sbrk (some 500) 8) = [ucm_event.vm_mapped 500 8] :=
  ⟨(claim_C7 (fun _ => 4096) (fun _ => 4096)).2.2.1 7 100 10 20 0 (by decide),
   (claim_C7 (fun _ => 4096) (fun _ => 4096)).2.2.2.2.2.2.1 500 8 (by decide)⟩

/-! ### Claim C8: aggregate ordering relative to the genuine operation -/

section NativeDispatchLemmas

variable {P R : Type}

theorem callOrigNative_of_none (kind : EventKind) (success : R → Bool)
    (orig : P → R) (st : DispatchState P R) (h : st.result = none) :
    callOrigNative kind success orig st =
      { st with
        result := some (orig st.params)
        origCalls := st.origCalls + 1
        trace := st.trace ++
          (if kind = EventKind.unmapType ∧ success (orig st.params) = true then
            [Step.fire_vm_unmapped] else []) ++ [Step.orig] } := by
  simp [callOrigNative, h]

theorem callOrigNative_of_some (kind : EventKind) (success : R → Bool)
    (orig : P → R) (st : DispatchState P R) (r : R) (h : st.result = some r) :
    callOrigNative kind success orig st = st := by
  simp [callOrigNative, h]

theorem fireMappedIfSuccess_trace (kind : EventKind) (success : R → Bool)
    (st : DispatchState P R) :
    (fireMappedIfSuccess kind success st).trace =
      st.trace ++
        (match kind, st.result with
          | EventKind.mapType, some r =>
            if success r then [Step.fire_vm_mapped] else []
          | _, _ => []) := by
  cases hst : st.result with
  | none => cases kind <;> simp [fireMappedIfSuccess, hst]
  | some r =>
    cases kind with
    | mapType => by_cases hr : success r <;> simp [fireMappedIfSuccess, hst, hr]
    | unmapType => simp [fireMappedIfSuccess, hst]

theorem matchKind_map (success : R → Bool) (o : Option R) :
    (match EventKind.mapType, o with
      | EventKind.mapType, some r => if success r then [Step.fire_vm_mapped] else []
      | _, _ => []) =
      (match o with
        | some r => if success r then [Step.fire_vm_mapped] else []
        | none => []) := by
  cases o <;> rfl

end NativeDispatchLemmas

/-- C8: in a full native dispatch over a chain whose negative-priority part
precedes its non-negative part, the aggregate events are ordered by kind
relative to the genuine operation: for a map-type event the appeared
aggregate fires strictly after the whole chain and after the genuine call
(post-hoc, when the final result indicates success), while for an unmap-type
event the disappeared aggregate fires immediately before the genuine call
(pre-release: at the causal point where the native result becomes valid, and
only when that result indicates success); a failed native operation fires no
aggregate at all. -/
theorem claim_C8 {P R : Type} (success : R → Bool) (orig : P → R)
    (negs poss : List (Handler P R)) (p : P)
    (hneg : ∀ h ∈ negs, h.priority < 0)
    (hpos : ∀ h ∈ poss, 0 ≤ h.priority) :
    (ucm_dispatch_native EventKind.mapType success orig (negs ++ poss) p).trace =
      (negs.map stepOf ++
        (if (runHandlers negs (initState p)).result.isNone then [Step.orig] else []) ++
        poss.map stepOf) ++
        (match (runHandlers poss (callOrigNative EventKind.mapType success orig
            (runHandlers negs (initState p)))).result with
          | some r => if success r then [Step.fire_vm_mapped] else []
          | none => []) ∧
    (ucm_dispatch_native EventKind.unmapType success orig (negs ++ poss) p).trace =
      negs.map stepOf ++
        (if (runHandlers negs (initState p)).result.isNone then
          (if success (orig (runHandlers negs (initState p)).params) then
            [Step.fire_vm_unmapped] else []) ++ [Step.orig]
        else []) ++
        poss.map stepOf := by
  constructor
  · rw [ucm_dispatch_native,
      dispatchChainWith_decomp (callOrigNative EventKind.mapType success orig)
        negs poss (initState p) hneg hpos,
      fireMappedIfSuccess_trace, runHandlers_trace]
    cases hres : (runHandlers negs (initState p)).result with
    | none =>
      rw [callOrigNative_of_none EventKind.mapType success orig _ hres]
      simp [runHandlers_trace, initState, hres]
      exact matchKind_map success _
    | some r =>
      rw [callOrigNative_of_some EventKind.mapType success orig _ r hres]
      simp [runHandlers_trace, initState, hres]
      exact matchKind_map success _
  · rw [ucm_dispatch_native,
      dispatchChainWith_decomp (callOrigNative EventKind.unmapType success orig)
        negs poss (initState p) hneg hpos]
    have hfix : ∀ st : DispatchState P R,
        fireMappedIfSuccess EventKind.unmapType success st = st := by
      intro st
      cases st.result <;> rfl
    rw [hfix, runHandlers_trace]
    cases hres : (runHandlers negs (initState p)).result with
    | none =>
      rw [callOrigNative_of_none EventKind.unmapType success orig _ hres]
      by_cases hs : success (orig (runHandlers negs (initState p)).params) = true
      · simp [runHandlers_trace, initState, hres, hs]
      · simp [runHandlers_trace, initState, hres, hs]
    | some r =>
      rw [callOrigNative_of_some EventKind.unmapType success orig _ r hres]
      simp [runHandlers_trace, initState, hres]

/-- Witness for C8: with a single observing pre handler, a concrete map-type
dispatch is traced handler, genuine call, appeared-aggregate, while the
concrete unmap-type dispatch is traced handler, disappeared-aggregate,
genuine call. -/
theorem claim_C8_witness :
    (ucm_dispatch_native EventKind.mapType (fun _ : Nat => true)
      (fun _ : Nat => (7 : Nat)) ([⟨-1, 0, fun q r => (q, r)⟩] ++ []) 0).trace =
      [Step.handler (-1) 0, Step.orig, Step.fire_vm_mapped] ∧
    (ucm_dispatch_native EventKind.unmapType (fun _ : Nat => true)
      (fun _ : Nat => (7 : Nat)) ([⟨-1, 0, fun q r => (q, r)⟩] ++ []) 0).trace =
      [Step.handler (-1) 0, Step.fire_vm_unmapped, Step.orig] :=
  have h := claim_C8 (fun _ : Nat => true) (fun _ : Nat => (7 : Nat))
    [⟨-1, 0, fun q r => (q, r)⟩] [] 0
    (by intro x hx; rw [List.mem_singleton] at hx; subst hx; decide)
    (fun x hx => absurd hx (List.not_mem_nil x))
  ⟨h.1.trans (by decide), h.2.trans (by decide)⟩

/-! ### Claim C10: the event-type bit layout -/

/-- C10: every `ucm_event_type_t` value is a distinct single bit — native
events occupy bits 0 through 5 (MMAP, MUNMAP, MREMAP, SHMAT, SHMDT, SBRK)
and aggregate events occupy bits 16 and 17 (VM_MAPPED, VM_UNMAPPED) — so the
native and aggregate bit sets are disjoint, an event mask over these types
decomposes uniquely into subscribed event types, and a mask built only from
native event types never contains an aggregate bit. -/
theorem claim_C10 :
    (ucm_event_type.UCM_EVENT_MMAP.value = 2 ^ 0 ∧
     ucm_event_type.UCM_EVENT_MUNMAP.value = 2 ^ 1 ∧
     ucm_event_type.UCM_EVENT_MREMAP.value = 2 ^ 2 ∧
     ucm_event_type.UCM_EVENT_SHMAT.value = 2 ^ 3 ∧
     ucm_event_type.UCM_EVENT_SHMDT.value = 2 ^ 4 ∧
     ucm_event_type.UCM_EVENT_SBRK.value = 2 ^ 5 ∧
     ucm_event_type.UCM_EVENT_VM_MAPPED.value = 2 ^ 16 ∧
     ucm_event_type.UCM_EVENT_VM_UNMAPPED.value = 2 ^ 17) ∧
    Function.Injective ucm_event_type.value ∧
    (∀ fb gb : ucm_event_type → Bool, eventMaskOf fb = eventMaskOf gb → fb = gb) ∧
    UCM_NATIVE_EVENT_MASK &&& UCM_AGGREGATE_EVENT_MASK = 0 ∧
    (∀ m : Nat, m &&& UCM_NATIVE_EVENT_MASK = m →
      m &&& UCM_AGGREGATE_EVENT_MASK = 0) := by
  refine ⟨by decide, by decide, by decide, by decide, ?_⟩
  intro m hm
  have hle : m ≤ 63 := by
    have h63 : UCM_NATIVE_EVENT_MASK = 63 := by decide
    calc m = m &&& UCM_NATIVE_EVENT_MASK := hm.symm
      _ ≤ UCM_NATIVE_EVENT_MASK := Nat.and_le_right
      _ = 63 := h63
  apply Nat.eq_of_testBit_eq
  intro i
  rw [Nat.testBit_and, Nat.zero_testBit]
  by_cases hi : i < 16
  · have hagg : UCM_AGGREGATE_EVENT_MASK.testBit i = false := by
      interval_cases i <;> decide
    simp [hagg]
  · have hmb : m.testBit i = false := by
      apply Nat.testBit_lt_two_pow
      have h2 : 2 ^ 16 ≤ 2 ^ i := Nat.pow_le_pow_right (by decide) (not_lt.mp hi)
      omega
    simp [hmb]

/-- Witness for C10: the mask 5 (MMAP together with MREMAP) is native-only
and indeed contains no aggregate bit, and the injectivity components apply
at concrete event types. -/
theorem claim_C10_witness :
    (5 : Nat) &&& UCM_AGGREGATE_EVENT_MASK = 0 ∧
    ucm_event_type.UCM_EVENT_MMAP = ucm_event_type.UCM_EVENT_MMAP :=
  ⟨claim_C10.2.2.2.2 5 (by decide),
   claim_C10.2.1 (by decide :
     ucm_event_type.UCM_EVENT_MMAP.value = ucm_event_type.UCM_EVENT_MMAP.value)⟩

end UCM
